import Mathlib

/-!
# Verification of the simplegit repository state machine

Shallow embedding of `src/simplegit/simplegit.py`.

Modelling conventions:
- A repository-relative path is a list of path components (`normpath(join ...)`
  in the source concatenates components; `dirname` drops the last component,
  `basename` is the last component).
- The working tree is the list of regular files currently on disk, each a pair
  of a path and its byte content (modelled as a `String`).  A directory exists
  on disk exactly when some file lies strictly below it; `os.listdir` of such a
  directory returns the distinct next components of the files below it, with no
  filtering of any kind (the source calls plain `os.listdir` in `add`).
- The repository state mirrors the on-disk layout inside `.simplegit`:
  the `HEAD` file content, the `TO_COMMIT` line list, and one record per
  commit directory holding `TRACKED_LIST`, `PREV_COMMIT` and the `COMMIT_DIR`
  file tree.  The snapshot tree (`COMMIT_DIR`) must distinguish directories
  from files because `commit`'s tree generation creates directories with
  `os.makedirs` and `copy2` behaves differently when its destination is an
  existing directory (it copies into it under the source basename).
- Fallible operations (`commit`, reading the tracked list of a missing commit)
  return `Except`; the `error` payload of `commit` is the repository state at
  the moment the exception is raised, mirroring the on-disk state left behind.
-/

namespace SimpleGit

/-- A repository-relative path, as its list of components. -/
abbrev Path := List String

/-- path component test of `os.walk`'s filtering: `f[0] == '.'`. -/
def hiddenName (s : String) : Bool := s.data.head? == some '.'

/-- `dirname` of a relative path: drop the last component. -/
def dirname (p : Path) : Path := p.dropLast

/-- `basename` of a relative path: its last component. -/
def basename (p : Path) : String := p.getLastD ""

/-- `leadOf d p` is true when `d` is an initial segment of `p`
(the path `p` lies at or below the directory `d`). -/
def leadOf : Path → Path → Bool
  | [], _ => true
  | _ :: _, [] => false
  | a :: d, b :: p => a == b && leadOf d p

/-- `nextComp d p = some c` when `p` is strictly below `d` and `c` is the
component of `p` immediately below `d` (the entry of `d` that leads to `p`). -/
def nextComp : Path → Path → Option String
  | [], [] => none
  | [], c :: _ => some c
  | _ :: _, [] => none
  | a :: d, b :: p => if a == b then nextComp d p else none

/-! ## The working tree -/

/-- The working tree: the regular files on disk, with their contents. -/
abbrev WorkTree := List (Path × String)

/-- Content of the working-tree file at `p`, if a regular file is there. -/
def lookupWork (w : WorkTree) (p : Path) : Option String :=
  (w.find? (fun e => e.1 == p)).map (·.2)

/-- `os.path.exists p && not isdir p`: a regular file sits at `p`. -/
def isWorkFile (w : WorkTree) (p : Path) : Bool := (lookupWork w p).isSome

/-- `os.path.isdir p`: a directory sits at `p`, i.e. some regular file lies
strictly below `p`. -/
def isWorkDir (w : WorkTree) (p : Path) : Bool :=
  w.any (fun e => (nextComp p e.1).isSome)

/-- `os.path.exists p` over the working tree. -/
def existsPath (w : WorkTree) (p : Path) : Bool := isWorkFile w p || isWorkDir w p

/-- `os.listdir` of directory `d`: the distinct entries directly below `d`.
No hidden-name filtering happens here, exactly as in the source's `add`. -/
def listdir (w : WorkTree) (d : Path) : List String :=
  (w.filterMap (fun e => nextComp d e.1)).dedup

/-- The paths `os.path.join(dir, f)` for `f` in `os.listdir(dir)`. -/
def childPaths (w : WorkTree) (d : Path) : List Path :=
  (listdir w d).map (fun c => d ++ [c])

/-- `allFiles` of the source: every visible regular file, where `os.walk`
prunes hidden file names and hidden directory names at every level, so a path
survives exactly when none of its components is hidden. -/
def allFiles (w : WorkTree) : List Path :=
  (w.map Prod.fst).filter (fun p => p.all (fun c => !hiddenName c))

/-- A physically possible working tree: no regular file lies strictly below
another regular file (a disk path cannot be both a file and a directory). -/
abbrev WorkOk (w : WorkTree) : Prop := ∀ e ∈ w, isWorkDir w e.1 = false

/-! ## Snapshot trees (the COMMIT_DIR of one commit) -/

/-- One node of a snapshot tree: a directory or a regular file with content. -/
inductive FsNode where
  | dir : FsNode
  | file : String → FsNode
deriving DecidableEq, Repr

/-- A snapshot tree: nodes keyed by path relative to `COMMIT_DIR`.  Later
writes are prepended, so the first entry for a path is the current one. -/
abbrev Fs := List (Path × FsNode)

/-- The node currently at `p` in the snapshot tree. -/
def fsLookup (fs : Fs) (p : Path) : Option FsNode :=
  (fs.find? (fun e => e.1 == p)).map (·.2)

/-- Is `p` a directory of the snapshot tree?  The root (`COMMIT_DIR` itself)
always is: `commit` creates it with `os.mkdir`. -/
def fsIsDir (fs : Fs) (p : Path) : Bool :=
  p == [] ||
    match fsLookup fs p with
    | some FsNode.dir => true
    | _ => false

/-- The nonempty initial segments of `p`, shortest first. -/
def ancestors (p : Path) : List Path :=
  (List.range p.length).map (fun i => p.take (i + 1))

/-- `os.makedirs p`: create a directory at `p` and at every missing ancestor. -/
def makedirs (fs : Fs) (p : Path) : Fs :=
  (ancestors p).foldl
    (fun acc q => if (fsLookup acc q).isNone then (q, FsNode.dir) :: acc else acc) fs

/-- `shutil.copy2 src dst` writing `content` (the bytes of `src`) at `dst`:
when `dst` is an existing directory the copy lands at `dst/basename(src)`,
otherwise at `dst` itself. -/
def copy2 (srcBase : String) (content : String) (fs : Fs) (dst : Path) : Fs :=
  if fsIsDir fs dst then (dst ++ [srcBase], FsNode.file content) :: fs
  else (dst, FsNode.file content) :: fs

/-- `generateDirTree` of the source, one staged path at a time, building the
snapshot tree rooted at the new commit's `COMMIT_DIR`.  For each `f`: if the
parent directory of the destination is not yet a directory, run
`os.makedirs` on the full destination path `f` (exactly as the source does,
although its guard tests `dirname(newFilePath)`); then `copy2` the working
file onto the destination.  A staged path missing from the working tree makes
`copy2` raise; the error carries the snapshot tree built so far. -/
def generateDirTree (w : WorkTree) (fs : Fs) : List Path → Except Fs Fs
  | [] => Except.ok fs
  | f :: rest =>
    match lookupWork w f with
    | none => Except.error (if fsIsDir fs (dirname f) then fs else makedirs fs f)
    | some content =>
      generateDirTree w
        (copy2 (basename f) content
          (if fsIsDir fs (dirname f) then fs else makedirs fs f) f) rest

/-! ## Repository state -/

/-- One commit directory: `TRACKED_LIST`, `PREV_COMMIT` and `COMMIT_DIR`. -/
structure Commit where
  trackedList : List Path
  prevCommit : String
  commitDir : Fs
deriving DecidableEq, Repr

/-- The persisted repository state: `HEAD` content, `TO_COMMIT` lines, the
commit directories keyed by commit id, and the working tree around it. -/
structure RepoState where
  head : String
  toCommit : List Path
  commits : List (String × Commit)
  work : WorkTree
deriving DecidableEq, Repr

/-- The commit record stored under id `id`, if any. -/
def lookupCommit (cs : List (String × Commit)) (id : String) : Option Commit :=
  (cs.find? (fun e => e.1 == id)).map (·.2)

/-- State left by `init`: empty `HEAD`, empty `TO_COMMIT`, no commits. -/
def initState (w : WorkTree) : RepoState :=
  { head := "", toCommit := [], commits := [], work := w }

/-! ## add -/

/-- The main loop of `add` over its input list: non-existing paths are
skipped with a per-file error message, directories are collected (in order)
for the recursive pass, and a regular file not yet in the staging list is
appended to it.  Returns the updated state and the collected directories. -/
def addPass : RepoState → List Path → RepoState × List Path
  | st, [] => (st, [])
  | st, f :: rest =>
    if existsPath st.work f then
      if isWorkDir st.work f then
        ((addPass st rest).1, f :: (addPass st rest).2)
      else if f ∈ st.toCommit then addPass st rest
      else addPass { st with toCommit := st.toCommit ++ [f] } rest
    else addPass st rest

/-- `add` of the source, with an explicit recursion-depth fuel (the source
recurses through the directory tree, which is finite on disk; any fuel
exceeding the depth of the deepest staged file below the given paths yields
the source's behaviour).  After the main loop, `add` re-invokes itself on
`os.listdir` of each collected directory. -/
def add : Nat → RepoState → List Path → RepoState
  | 0, st, _ => st
  | fuel + 1, st, files =>
    let r := addPass st files
    r.2.foldl (fun s d => add fuel s (childPaths s.work d)) r.1

/-- The directory-recursion pass of `add`, named for reasoning. -/
def addDirs (fuel : Nat) (st : RepoState) (ds : List Path) : RepoState :=
  ds.foldl (fun s d => add fuel s (childPaths s.work d)) st

/-! ## commit -/

/-- `commit` of the source.  In order: assert that no commit directory with
the new id exists (raises with the state untouched otherwise); create the
commit directory with empty `TRACKED_LIST`, `PREV_COMMIT`, `COMMIT_DIR`;
record the previous `HEAD` value in `PREV_COMMIT` (an empty `HEAD` leaves the
file empty); overwrite `HEAD` with the new id; copy `TO_COMMIT` into
`TRACKED_LIST`; finally build the snapshot tree with `generateDirTree`, whose
own assertion requires the freshly written `HEAD` to be nonempty.  Any raise
after the directory was created leaves the partially built record and the
already-updated `HEAD` in place, which the `error` payload records. -/
def commit (st : RepoState) (newId : String) : Except RepoState RepoState :=
  if (lookupCommit st.commits newId).isSome then Except.error st
  else if newId = "" then
    Except.error { st with head := newId,
                           commits := (newId, ⟨st.toCommit, st.head, []⟩) :: st.commits }
  else
    match generateDirTree st.work [] st.toCommit with
    | Except.error fsPart =>
      Except.error { st with head := newId,
                             commits := (newId, ⟨st.toCommit, st.head, fsPart⟩) :: st.commits }
    | Except.ok fsFull =>
      Except.ok { st with head := newId,
                          commits := (newId, ⟨st.toCommit, st.head, fsFull⟩) :: st.commits }

/-! ## status -/

/-- `wasCommited` of the source (source spelling kept): with an empty `HEAD`
it answers `false` before touching any commit directory; otherwise it opens
the `TRACKED_LIST` of the `HEAD` commit (raising if that commit directory is
missing) and tests membership of the path. -/
def wasCommited (st : RepoState) (f : Path) : Except Unit Bool :=
  if st.head = "" then Except.ok false
  else
    match lookupCommit st.commits st.head with
    | none => Except.error ()
    | some c => Except.ok (decide (f ∈ c.trackedList))

/-- `wasAdded` of the source: membership in the `TO_COMMIT` line list. -/
def wasAdded (st : RepoState) (f : Path) : Bool := decide (f ∈ st.toCommit)

/-- The classification `status` gives one working-tree file. -/
inductive FileStatus where
  | committed : FileStatus
  | staged : FileStatus
  | untracked : FileStatus
deriving DecidableEq, Repr

/-- The per-file classification of `status`: committed files produce no
output, otherwise staged ("added and waiting to commit"), otherwise
untracked ("new file"). -/
def statusOf (st : RepoState) (f : Path) : Except Unit FileStatus :=
  match wasCommited st f with
  | Except.error _ => Except.error ()
  | Except.ok true => Except.ok FileStatus.committed
  | Except.ok false =>
    if wasAdded st f then Except.ok FileStatus.staged
    else Except.ok FileStatus.untracked

/-! ## The commit chain -/

/-- Follow `PREV_COMMIT` links starting at `id`, counting the steps until the
empty predecessor; `none` when a link is dangling or `fuel` runs out (as it
does on a cycle once `fuel` exceeds the number of stored commits). -/
def chainLen (cs : List (String × Commit)) (fuel : Nat) (id : String) : Option Nat :=
  if id = "" then some 0
  else
    match fuel with
    | 0 => none
    | f + 1 =>
      match lookupCommit cs id with
      | none => none
      | some c => (chainLen cs f c.prevCommit).map (· + 1)

/-- Repository states reachable from initialization: any run of `add`, any
successful `commit`, and arbitrary working-tree edits between commands.  The
second index counts the commits ever created. -/
inductive Reached : RepoState → Nat → Prop where
  | start : ∀ w, Reached (initState w) 0
  | stepAdd : ∀ st n fuel files, Reached st n → Reached (add fuel st files) n
  | stepCommit : ∀ st n id st', Reached st n → commit st id = Except.ok st' →
      Reached st' (n + 1)
  | stepEdit : ∀ st n w, Reached st n → Reached { st with work := w } n

/-! ## Basic path lemmas -/

theorem leadOf_iff (d p : Path) : leadOf d p = true ↔ ∃ t, p = d ++ t := by
  induction d generalizing p with
  | nil => simp [leadOf]
  | cons a d ih =>
    cases p with
    | nil =>
      simp only [leadOf, List.cons_append]
      constructor
      · intro h; exact absurd h (by simp)
      · rintro ⟨t, ht⟩; exact absurd ht (by simp)
    | cons b p =>
      simp only [leadOf, Bool.and_eq_true, beq_iff_eq, ih, List.cons_append]
      constructor
      · rintro ⟨rfl, t, rfl⟩; exact ⟨t, rfl⟩
      · rintro ⟨t, ht⟩
        injection ht with h1 h2
        exact ⟨h1.symm, t, h2⟩

theorem nextComp_eq_some_iff (d p : Path) (c : String) :
    nextComp d p = some c ↔ ∃ t, p = d ++ c :: t := by
  induction d generalizing p with
  | nil =>
    cases p with
    | nil => simp [nextComp]
    | cons b p =>
      simp only [nextComp, Option.some_inj, List.nil_append]
      constructor
      · rintro rfl; exact ⟨p, rfl⟩
      · rintro ⟨t, ht⟩
        rw [List.cons.injEq] at ht
        exact ht.1
  | cons a d ih =>
    cases p with
    | nil =>
      simp only [nextComp, List.cons_append]
      constructor
      · intro h; exact absurd h (by simp)
      · rintro ⟨t, ht⟩; exact absurd ht (by simp)
    | cons b p =>
      simp only [nextComp, List.cons_append]
      by_cases hab : a = b
      · subst hab
        simp only [beq_self_eq_true, if_true, ih]
        constructor
        · rintro ⟨t, rfl⟩; exact ⟨t, rfl⟩
        · rintro ⟨t, ht⟩; injection ht with _ h2; exact ⟨t, h2⟩
      · simp only [beq_iff_eq, hab, if_false]
        constructor
        · intro h; exact absurd h (by simp)
        · rintro ⟨t, ht⟩; injection ht with h1 _; exact absurd h1.symm hab

theorem nextComp_isSome_iff (d p : Path) :
    (nextComp d p).isSome = true ↔ ∃ c t, p = d ++ c :: t := by
  rw [Option.isSome_iff_exists]
  constructor
  · rintro ⟨c, hc⟩
    obtain ⟨t, ht⟩ := (nextComp_eq_some_iff d p c).mp hc
    exact ⟨c, t, ht⟩
  · rintro ⟨c, t, ht⟩
    exact ⟨c, (nextComp_eq_some_iff d p c).mpr ⟨t, ht⟩⟩

theorem nextComp_append (d : Path) (c : String) (t : Path) :
    nextComp d (d ++ c :: t) = some c :=
  (nextComp_eq_some_iff d _ c).mpr ⟨t, rfl⟩

/-! ## Lookup lemmas -/

theorem lookupWork_isSome_iff (w : WorkTree) (p : Path) :
    (lookupWork w p).isSome = true ↔ ∃ s, (p, s) ∈ w := by
  simp only [lookupWork, Option.isSome_map', List.find?_isSome]
  constructor
  · rintro ⟨⟨q, s⟩, hmem, hq⟩
    simp only [beq_iff_eq] at hq
    subst hq
    exact ⟨s, hmem⟩
  · rintro ⟨s, hmem⟩
    exact ⟨(p, s), hmem, by simp⟩

theorem isWorkFile_iff (w : WorkTree) (p : Path) :
    isWorkFile w p = true ↔ ∃ s, (p, s) ∈ w := by
  rw [isWorkFile, lookupWork_isSome_iff]

theorem isWorkDir_iff (w : WorkTree) (p : Path) :
    isWorkDir w p = true ↔ ∃ e ∈ w, ∃ c t, e.1 = p ++ c :: t := by
  simp only [isWorkDir, List.any_eq_true, nextComp_isSome_iff]

theorem mem_listdir (w : WorkTree) (d : Path) (c : String) :
    c ∈ listdir w d ↔ ∃ e ∈ w, nextComp d e.1 = some c := by
  simp only [listdir, List.mem_dedup, List.mem_filterMap]

theorem mem_childPaths (w : WorkTree) (d q : Path) :
    q ∈ childPaths w d ↔ ∃ c, c ∈ listdir w d ∧ q = d ++ [c] := by
  simp only [childPaths, List.mem_map]
  constructor
  · rintro ⟨c, hc, rfl⟩; exact ⟨c, hc, rfl⟩
  · rintro ⟨c, hc, rfl⟩; exact ⟨c, hc, rfl⟩

theorem workOk_file_not_dir {w : WorkTree} (hok : WorkOk w) {p : Path}
    (hf : isWorkFile w p = true) : isWorkDir w p = false := by
  obtain ⟨s, hmem⟩ := (isWorkFile_iff w p).mp hf
  exact hok (p, s) hmem

theorem lookupCommit_cons (k : String) (c : Commit) (cs : List (String × Commit))
    (id : String) :
    lookupCommit ((k, c) :: cs) id = if k = id then some c else lookupCommit cs id := by
  by_cases h : k = id
  · simp only [lookupCommit, h, if_true]
    rw [List.find?_cons_of_pos _ (by simp)]
    rfl
  · simp only [lookupCommit, h, if_false]
    rw [List.find?_cons_of_neg _ (by simpa using h)]

/-! ## Lemmas about the main loop of add -/

theorem addPass_cons_skip (st : RepoState) (f : Path) (rest : List Path)
    (h : existsPath st.work f = false) : addPass st (f :: rest) = addPass st rest := by
  simp [addPass, h]

theorem addPass_cons_dir (st : RepoState) (f : Path) (rest : List Path)
    (h1 : existsPath st.work f = true) (h2 : isWorkDir st.work f = true) :
    addPass st (f :: rest) = ((addPass st rest).1, f :: (addPass st rest).2) := by
  simp [addPass, h1, h2]

theorem addPass_cons_old (st : RepoState) (f : Path) (rest : List Path)
    (h1 : existsPath st.work f = true) (h2 : isWorkDir st.work f = false)
    (h3 : f ∈ st.toCommit) : addPass st (f :: rest) = addPass st rest := by
  simp [addPass, h1, h2, h3]

theorem addPass_cons_new (st : RepoState) (f : Path) (rest : List Path)
    (h1 : existsPath st.work f = true) (h2 : isWorkDir st.work f = false)
    (h3 : f ∉ st.toCommit) :
    addPass st (f :: rest) = addPass { st with toCommit := st.toCommit ++ [f] } rest := by
  simp [addPass, h1, h2, h3]

theorem addPass_state (files : List Path) :
    ∀ st : RepoState, ∃ l, (addPass st files).1 = { st with toCommit := st.toCommit ++ l } := by
  induction files with
  | nil => intro st; exact ⟨[], by simp [addPass]⟩
  | cons f rest ih =>
    intro st
    cases h1 : existsPath st.work f with
    | false =>
      obtain ⟨l, hl⟩ := ih st
      exact ⟨l, by rw [addPass_cons_skip st f rest h1, hl]⟩
    | true =>
      cases h2 : isWorkDir st.work f with
      | true =>
        obtain ⟨l, hl⟩ := ih st
        exact ⟨l, by rw [addPass_cons_dir st f rest h1 h2, hl]⟩
      | false =>
        by_cases h3 : f ∈ st.toCommit
        · obtain ⟨l, hl⟩ := ih st
          exact ⟨l, by rw [addPass_cons_old st f rest h1 h2 h3, hl]⟩
        · obtain ⟨l, hl⟩ := ih { st with toCommit := st.toCommit ++ [f] }
          refine ⟨[f] ++ l, ?_⟩
          rw [addPass_cons_new st f rest h1 h2 h3, hl]
          simp [List.append_assoc]

theorem addPass_work (files : List Path) (st : RepoState) :
    (addPass st files).1.work = st.work := by
  obtain ⟨l, hl⟩ := addPass_state files st
  rw [hl]

theorem addPass_head (files : List Path) (st : RepoState) :
    (addPass st files).1.head = st.head := by
  obtain ⟨l, hl⟩ := addPass_state files st
  rw [hl]

theorem addPass_commits (files : List Path) (st : RepoState) :
    (addPass st files).1.commits = st.commits := by
  obtain ⟨l, hl⟩ := addPass_state files st
  rw [hl]

theorem addPass_snd (files : List Path) :
    ∀ st : RepoState, (addPass st files).2 = files.filter (fun f => isWorkDir st.work f) := by
  induction files with
  | nil => intro st; simp [addPass]
  | cons f rest ih =>
    intro st
    cases h1 : existsPath st.work f with
    | false =>
      have hd : isWorkDir st.work f = false := by
        have := h1
        simp only [existsPath, Bool.or_eq_false_iff] at this
        exact this.2
      rw [addPass_cons_skip st f rest h1, ih st]
      simp [hd]
    | true =>
      cases h2 : isWorkDir st.work f with
      | true =>
        rw [addPass_cons_dir st f rest h1 h2]
        simp [h2, ih st]
      | false =>
        by_cases h3 : f ∈ st.toCommit
        · rw [addPass_cons_old st f rest h1 h2 h3, ih st]
          simp [h2]
        · rw [addPass_cons_new st f rest h1 h2 h3,
            ih { st with toCommit := st.toCommit ++ [f] }]
          simp [h2]

theorem addPass_mem (files : List Path) :
    ∀ (st : RepoState) (p : Path),
      p ∈ (addPass st files).1.toCommit ↔
        p ∈ st.toCommit ∨
          (existsPath st.work p = true ∧ isWorkDir st.work p = false ∧ p ∈ files) := by
  induction files with
  | nil => intro st p; simp [addPass]
  | cons f rest ih =>
    intro st p
    by_cases hpf : p = f
    · subst hpf
      cases h1 : existsPath st.work p with
      | false =>
        rw [addPass_cons_skip st p rest h1, ih st p]
        simp [h1]
      | true =>
        cases h2 : isWorkDir st.work p with
        | true =>
          rw [addPass_cons_dir st p rest h1 h2]
          rw [show ((addPass st rest).1, p :: (addPass st rest).2).1 = (addPass st rest).1 from rfl]
          rw [ih st p]
          simp [h2]
        | false =>
          by_cases h3 : p ∈ st.toCommit
          · rw [addPass_cons_old st p rest h1 h2 h3, ih st p]
            simp [h3]
          · rw [addPass_cons_new st p rest h1 h2 h3,
              ih { st with toCommit := st.toCommit ++ [p] } p]
            simp [h1, h2, List.mem_append]
    · have hmc : p ∈ f :: rest ↔ p ∈ rest := by simp [List.mem_cons, hpf]
      cases h1 : existsPath st.work f with
      | false =>
        rw [addPass_cons_skip st f rest h1, ih st p, hmc]
      | true =>
        cases h2 : isWorkDir st.work f with
        | true =>
          rw [addPass_cons_dir st f rest h1 h2]
          rw [show ((addPass st rest).1, f :: (addPass st rest).2).1 = (addPass st rest).1 from rfl]
          rw [ih st p, hmc]
        | false =>
          by_cases h3 : f ∈ st.toCommit
          · rw [addPass_cons_old st f rest h1 h2 h3, ih st p, hmc]
          · rw [addPass_cons_new st f rest h1 h2 h3,
              ih { st with toCommit := st.toCommit ++ [f] } p, hmc]
            simp [List.mem_append, List.mem_singleton, hpf]

theorem addPass_count (p : Path) (files : List Path) :
    ∀ st : RepoState, 1 ≤ st.toCommit.count p →
      (addPass st files).1.toCommit.count p = st.toCommit.count p := by
  induction files with
  | nil => intro st _; simp [addPass]
  | cons f rest ih =>
    intro st hcnt
    cases h1 : existsPath st.work f with
    | false =>
      rw [addPass_cons_skip st f rest h1]
      exact ih st hcnt
    | true =>
      cases h2 : isWorkDir st.work f with
      | true =>
        rw [addPass_cons_dir st f rest h1 h2]
        exact ih st hcnt
      | false =>
        by_cases h3 : f ∈ st.toCommit
        · rw [addPass_cons_old st f rest h1 h2 h3]
          exact ih st hcnt
        · have hpf : p ≠ f := by
            intro h
            subst h
            exact h3 (List.count_pos_iff.mp (by omega))
          rw [addPass_cons_new st f rest h1 h2 h3]
          have hkeep : (st.toCommit ++ [f]).count p = st.toCommit.count p := by
            simp [List.count_append, List.count_cons, hpf]
          have hrec := ih { st with toCommit := st.toCommit ++ [f] }
            (by simp only [hkeep]; omega)
          simp only [hkeep] at hrec
          exact hrec

/-! ## Lemmas about add -/

theorem add_fuel_zero (st : RepoState) (files : List Path) : add 0 st files = st := rfl

theorem add_fuel_succ (fuel : Nat) (st : RepoState) (files : List Path) :
    add (fuel + 1) st files = addDirs fuel (addPass st files).1 (addPass st files).2 := rfl

theorem addDirs_nil (fuel : Nat) (st : RepoState) : addDirs fuel st [] = st := rfl

theorem addDirs_cons (fuel : Nat) (st : RepoState) (d : Path) (ds : List Path) :
    addDirs fuel st (d :: ds) = addDirs fuel (add fuel st (childPaths st.work d)) ds := rfl

theorem add_frame : ∀ (fuel : Nat) (files : List Path) (st : RepoState),
    (add fuel st files).work = st.work ∧ (add fuel st files).head = st.head ∧
      (add fuel st files).commits = st.commits := by
  intro fuel
  induction fuel with
  | zero => intro files st; exact ⟨rfl, rfl, rfl⟩
  | succ fuel ih =>
    have hds : ∀ (ds : List Path) (s : RepoState),
        (addDirs fuel s ds).work = s.work ∧ (addDirs fuel s ds).head = s.head ∧
          (addDirs fuel s ds).commits = s.commits := by
      intro ds
      induction ds with
      | nil => intro s; exact ⟨rfl, rfl, rfl⟩
      | cons d ds ihds =>
        intro s
        rw [addDirs_cons]
        obtain ⟨hw, hh, hc⟩ := ihds (add fuel s (childPaths s.work d))
        obtain ⟨hw2, hh2, hc2⟩ := ih (childPaths s.work d) s
        exact ⟨hw.trans hw2, hh.trans hh2, hc.trans hc2⟩
    intro files st
    rw [add_fuel_succ]
    obtain ⟨hw, hh, hc⟩ := hds (addPass st files).2 (addPass st files).1
    refine ⟨?_, ?_, ?_⟩
    · rw [hw, addPass_work]
    · rw [hh, addPass_head]
    · rw [hc, addPass_commits]

theorem add_work (fuel : Nat) (files : List Path) (st : RepoState) :
    (add fuel st files).work = st.work := (add_frame fuel files st).1

theorem add_head (fuel : Nat) (files : List Path) (st : RepoState) :
    (add fuel st files).head = st.head := (add_frame fuel files st).2.1

theorem add_commits (fuel : Nat) (files : List Path) (st : RepoState) :
    (add fuel st files).commits = st.commits := (add_frame fuel files st).2.2

theorem add_count (p : Path) : ∀ (fuel : Nat) (files : List Path) (st : RepoState),
    1 ≤ st.toCommit.count p →
      (add fuel st files).toCommit.count p = st.toCommit.count p := by
  intro fuel
  induction fuel with
  | zero => intro files st _; rfl
  | succ fuel ih =>
    have hds : ∀ (ds : List Path) (s : RepoState), 1 ≤ s.toCommit.count p →
        (addDirs fuel s ds).toCommit.count p = s.toCommit.count p := by
      intro ds
      induction ds with
      | nil => intro s _; rfl
      | cons d ds ihds =>
        intro s hs
        rw [addDirs_cons]
        have h1 := ih (childPaths s.work d) s hs
        have h2 := ihds (add fuel s (childPaths s.work d)) (by rw [h1]; exact hs)
        rw [h2, h1]
    intro files st hcnt
    rw [add_fuel_succ]
    have h1 := addPass_count p files st hcnt
    have h2 := hds (addPass st files).2 (addPass st files).1 (by rw [h1]; exact hcnt)
    rw [h2, h1]

/-- A path `add` would actually write to the staging list: it exists on disk
and is not a directory (hence is a regular file). -/
abbrev stageable (w : WorkTree) (p : Path) : Prop :=
  existsPath w p = true ∧ isWorkDir w p = false

theorem stageable_iff (w : WorkTree) (p : Path) :
    stageable w p ↔ isWorkFile w p = true ∧ isWorkDir w p = false := by
  unfold stageable existsPath
  constructor
  · rintro ⟨h1, h2⟩
    rw [h2, Bool.or_false] at h1
    exact ⟨h1, h2⟩
  · rintro ⟨h1, h2⟩
    exact ⟨by rw [h1, Bool.true_or], h2⟩

theorem stageable_entry {w : WorkTree} {p : Path} (h : stageable w p) :
    ∃ s, (p, s) ∈ w :=
  (isWorkFile_iff w p).mp ((stageable_iff w p).mp h).1

theorem listdir_of_entry {w : WorkTree} {p : Path} {s : String} (hmem : (p, s) ∈ w)
    (d : Path) (c : String) (t : Path) (hp : p = d ++ c :: t) : c ∈ listdir w d :=
  (mem_listdir w d c).mpr ⟨(p, s), hmem, by rw [hp]; exact nextComp_append d c t⟩

theorem childPaths_of_entry {w : WorkTree} {p : Path} {s : String} (hmem : (p, s) ∈ w)
    (d : Path) (c : String) (t : Path) (hp : p = d ++ c :: t) :
    d ++ [c] ∈ childPaths w d :=
  (mem_childPaths w d (d ++ [c])).mpr ⟨c, listdir_of_entry hmem d c t hp, rfl⟩

/-- Descent step for the recursion of `add`: a stageable path is strictly
below `d` within depth budget `fuel + 1` exactly when it is a direct child of
`d`, or lies strictly below a directory child of `d` within budget `fuel`. -/
theorem descent_iff (w : WorkTree) (d p : Path) (fuel : Nat) (hstg : stageable w p) :
    ((1 ≤ fuel ∧ p ∈ childPaths w d) ∨
      ∃ d' ∈ childPaths w d, isWorkDir w d' = true ∧
        ∃ c t, p = d' ++ c :: t ∧ t.length + 1 < fuel)
    ↔ ∃ c t, p = d ++ c :: t ∧ t.length + 1 < fuel + 1 := by
  obtain ⟨s, hs⟩ := stageable_entry hstg
  constructor
  · rintro (⟨hfuel, hpc⟩ | ⟨d', hd'mem, hdir, c, t, hp, hlen⟩)
    · obtain ⟨c, hc, rfl⟩ := (mem_childPaths w d p).mp hpc
      exact ⟨c, [], rfl, by simp only [List.length_nil]; omega⟩
    · obtain ⟨c₀, hc₀, rfl⟩ := (mem_childPaths w d d').mp hd'mem
      refine ⟨c₀, c :: t, ?_, ?_⟩
      · rw [hp]; simp
      · simp only [List.length_cons]; omega
  · rintro ⟨c, t, hp, hlen⟩
    cases t with
    | nil =>
      refine Or.inl ⟨by omega, ?_⟩
      rw [hp]
      exact (mem_childPaths w d (d ++ [c])).mpr ⟨c, listdir_of_entry hs d c [] hp, rfl⟩
    | cons c₁ t₁ =>
      refine Or.inr ⟨d ++ [c], childPaths_of_entry hs d c (c₁ :: t₁) hp, ?_, c₁, t₁, ?_, ?_⟩
      · exact (isWorkDir_iff w (d ++ [c])).mpr ⟨(p, s), hs, c₁, t₁, by rw [hp]; simp⟩
      · rw [hp]; simp
      · simp only [List.length_cons] at hlen; omega

theorem addDirs_mem_aux (fuel : Nat)
    (IH : ∀ (files : List Path) (st : RepoState) (p : Path),
      p ∈ (add fuel st files).toCommit ↔
        p ∈ st.toCommit ∨
          (stageable st.work p ∧
            ((1 ≤ fuel ∧ p ∈ files) ∨
              ∃ d ∈ files, isWorkDir st.work d = true ∧
                ∃ c t, p = d ++ c :: t ∧ t.length + 1 < fuel))) :
    ∀ (ds : List Path) (st : RepoState) (p : Path),
      p ∈ (addDirs fuel st ds).toCommit ↔
        p ∈ st.toCommit ∨
          (stageable st.work p ∧ ∃ d ∈ ds,
            ((1 ≤ fuel ∧ p ∈ childPaths st.work d) ∨
              ∃ d' ∈ childPaths st.work d, isWorkDir st.work d' = true ∧
                ∃ c t, p = d' ++ c :: t ∧ t.length + 1 < fuel)) := by
  intro ds
  induction ds with
  | nil => intro st p; simp [addDirs_nil]
  | cons d ds ihds =>
    intro st p
    rw [addDirs_cons, ihds (add fuel st (childPaths st.work d)) p,
      add_work fuel (childPaths st.work d) st, IH (childPaths st.work d) st p]
    simp only [List.mem_cons]
    constructor
    · rintro ((h | ⟨hstg, hdesc⟩) | ⟨hstg, dd, hdd, hdesc⟩)
      · exact Or.inl h
      · exact Or.inr ⟨hstg, d, Or.inl rfl, hdesc⟩
      · exact Or.inr ⟨hstg, dd, Or.inr hdd, hdesc⟩
    · rintro (h | ⟨hstg, dd, (rfl | hdd), hdesc⟩)
      · exact Or.inl (Or.inl h)
      · exact Or.inl (Or.inr ⟨hstg, hdesc⟩)
      · exact Or.inr ⟨hstg, dd, hdd, hdesc⟩

/-- Full characterization of the staging list after `add`: a path ends up
staged exactly when it was already staged, or it is stageable (an existing
non-directory) and is either given directly (with at least one unit of fuel)
or lies strictly below a given directory within the fuel's depth budget.
No hidden-name condition appears anywhere. -/
theorem add_mem : ∀ (fuel : Nat) (files : List Path) (st : RepoState) (p : Path),
    p ∈ (add fuel st files).toCommit ↔
      p ∈ st.toCommit ∨
        (stageable st.work p ∧
          ((1 ≤ fuel ∧ p ∈ files) ∨
            ∃ d ∈ files, isWorkDir st.work d = true ∧
              ∃ c t, p = d ++ c :: t ∧ t.length + 1 < fuel)) := by
  intro fuel
  induction fuel with
  | zero =>
    intro files st p
    rw [add_fuel_zero]
    constructor
    · exact Or.inl
    · rintro (h | ⟨_, (⟨h0, _⟩ | ⟨d, _, _, c, t, _, hlt⟩)⟩)
      · exact h
      · omega
      · omega
  | succ fuel ih =>
    intro files st p
    rw [add_fuel_succ, addDirs_mem_aux fuel ih (addPass st files).2 (addPass st files).1 p,
      addPass_work files st, addPass_mem files st p, addPass_snd files st]
    constructor
    · rintro ((h | ⟨hE, hD, hmem⟩) | ⟨hstg, d, hdmem, hdesc⟩)
      · exact Or.inl h
      · exact Or.inr ⟨⟨hE, hD⟩, Or.inl ⟨by omega, hmem⟩⟩
      · refine Or.inr ⟨hstg, Or.inr ?_⟩
        have hdmem' := List.mem_filter.mp hdmem
        exact ⟨d, hdmem'.1, by simpa using hdmem'.2,
          (descent_iff st.work d p fuel hstg).mp hdesc⟩
    · rintro (h | ⟨hstg, (⟨_, hmem⟩ | ⟨d, hdmem, hdir, hdesc⟩)⟩)
      · exact Or.inl (Or.inl h)
      · exact Or.inl (Or.inr ⟨hstg.1, hstg.2, hmem⟩)
      · refine Or.inr ⟨hstg, d, List.mem_filter.mpr ⟨hdmem, by simpa using hdir⟩, ?_⟩
        exact (descent_iff st.work d p fuel hstg).mpr hdesc

/-! ## Lemmas about commit -/

theorem commit_ok_spec {st : RepoState} {id : String} {st' : RepoState}
    (h : commit st id = Except.ok st') :
    lookupCommit st.commits id = none ∧ id ≠ "" ∧
      ∃ fs, generateDirTree st.work [] st.toCommit = Except.ok fs ∧
        st' = { st with head := id,
                        commits := (id, ⟨st.toCommit, st.head, fs⟩) :: st.commits } := by
  unfold commit at h
  split at h
  next h1 => exact absurd h (by simp)
  next h1 =>
    split at h
    next h2 => exact absurd h (by simp)
    next h2 =>
      split at h
      next fsP heq => exact absurd h (by simp)
      next fsF heq =>
        refine ⟨?_, h2, fsF, heq, ?_⟩
        · cases hlk : lookupCommit st.commits id with
          | none => rfl
          | some c => rw [hlk] at h1; exact absurd rfl h1
        · injection h with h'
          exact h'.symm

theorem generateDirTree_error (w : WorkTree) : ∀ (files : List Path) (fs : Fs),
    (∃ f ∈ files, lookupWork w f = none) →
      ∃ fs', generateDirTree w fs files = Except.error fs' := by
  intro files
  induction files with
  | nil =>
    rintro fs ⟨f, hf, _⟩
    exact absurd hf (by simp)
  | cons f rest ih =>
    rintro fs ⟨g, hg, hmiss⟩
    cases hlk : lookupWork w f with
    | none =>
      exact ⟨if fsIsDir fs (dirname f) then fs else makedirs fs f,
        by simp only [generateDirTree, hlk]⟩
    | some content =>
      rcases List.mem_cons.mp hg with rfl | hgrest
      · rw [hlk] at hmiss; exact absurd hmiss (by simp)
      · obtain ⟨fs', hfs'⟩ := ih
          (copy2 (basename f) content
            (if fsIsDir fs (dirname f) then fs else makedirs fs f) f)
          ⟨g, hgrest, hmiss⟩
        refine ⟨fs', ?_⟩
        simp only [generateDirTree, hlk]
        exact hfs'

theorem commit_error_of_missing {st : RepoState} {id : String}
    (hfresh : lookupCommit st.commits id = none) (hne : id ≠ "")
    {f : Path} (hf : f ∈ st.toCommit) (hmiss : lookupWork st.work f = none) :
    ∃ fsPart, commit st id =
      Except.error { st with head := id,
                             commits := (id, ⟨st.toCommit, st.head, fsPart⟩) :: st.commits } := by
  obtain ⟨fs', hfs'⟩ := generateDirTree_error st.work st.toCommit [] ⟨f, hf, hmiss⟩
  refine ⟨fs', ?_⟩
  unfold commit
  rw [if_neg (by simp [hfresh]), if_neg hne]
  simp only [hfs']

/-! ## Lemmas about the commit chain -/

theorem chainLen_empty (cs : List (String × Commit)) (fuel : Nat) :
    chainLen cs fuel "" = some 0 := by
  cases fuel <;> simp [chainLen]

theorem chainLen_zero_ne (cs : List (String × Commit)) {id : String} (h : id ≠ "") :
    chainLen cs 0 id = none := by
  rw [chainLen, if_neg h]

theorem chainLen_succ_none (cs : List (String × Commit)) (fuel : Nat) {id : String}
    (h : id ≠ "") (hlk : lookupCommit cs id = none) :
    chainLen cs (fuel + 1) id = none := by
  rw [chainLen, if_neg h]
  simp only [hlk]

theorem chainLen_succ_some (cs : List (String × Commit)) (fuel : Nat) {id : String}
    {c : Commit} (h : id ≠ "") (hlk : lookupCommit cs id = some c) :
    chainLen cs (fuel + 1) id = (chainLen cs fuel c.prevCommit).map (· + 1) := by
  rw [chainLen, if_neg h]
  simp only [hlk]

/-- Adding a record under a fresh nonempty id changes no existing chain. -/
theorem chainLen_cons_fresh {cs : List (String × Commit)} {id : String} {c : Commit}
    (hfresh : lookupCommit cs id = none) :
    ∀ (fuel : Nat) (x : String) (n : Nat), chainLen cs fuel x = some n →
      chainLen ((id, c) :: cs) fuel x = some n := by
  intro fuel
  induction fuel with
  | zero =>
    intro x n h
    by_cases hx : x = ""
    · subst hx
      rw [chainLen_empty] at h ⊢
      exact h
    · rw [chainLen_zero_ne cs hx] at h
      exact absurd h (by simp)
  | succ fuel ih =>
    intro x n h
    by_cases hx : x = ""
    · subst hx
      rw [chainLen_empty] at h ⊢
      exact h
    · cases hlk : lookupCommit cs x with
      | none =>
        rw [chainLen_succ_none cs fuel hx hlk] at h
        exact absurd h (by simp)
      | some c' =>
        have hxid : id ≠ x := by
          intro hx'
          rw [hx'] at hfresh
          rw [hfresh] at hlk
          exact absurd hlk (by simp)
        have hlk' : lookupCommit ((id, c) :: cs) x = some c' := by
          rw [lookupCommit_cons, if_neg hxid, hlk]
        rw [chainLen_succ_some cs fuel hx hlk] at h
        rw [chainLen_succ_some ((id, c) :: cs) fuel hx hlk']
        cases hrec : chainLen cs fuel c'.prevCommit with
        | none => rw [hrec] at h; exact absurd h (by simp)
        | some m =>
          rw [hrec] at h
          rw [ih c'.prevCommit m hrec]
          exact h

/-! ## Concrete repository states used by witnesses and counterexamples -/

/-- One staged file nested in a subdirectory; nothing committed yet. -/
def stNested : RepoState :=
  { head := "", toCommit := [["sub", "b.txt"]], commits := [],
    work := [(["sub", "b.txt"], "x")] }

/-- The snapshot tree `commit` actually builds for `stNested`. -/
def fsNested : Fs :=
  [(["sub", "b.txt", "b.txt"], FsNode.file "x"), (["sub", "b.txt"], FsNode.dir),
   (["sub"], FsNode.dir)]

/-- The state `commit stNested "abc"` produces. -/
def stNestedC : RepoState :=
  { head := "abc", toCommit := [["sub", "b.txt"]],
    commits := [("abc", ⟨[["sub", "b.txt"]], "", fsNested⟩)],
    work := [(["sub", "b.txt"], "x")] }

/-- A working tree holding one hidden file inside directory `d`. -/
def stHidden : RepoState :=
  { head := "", toCommit := [], commits := [], work := [(["d", ".h"], "x")] }

/-- One staged top-level file, ready to commit. -/
def stOne : RepoState :=
  { head := "", toCommit := [["a.txt"]], commits := [], work := [(["a.txt"], "x")] }

/-- The state `commit stOne "c1"` produces. -/
def stOneC : RepoState :=
  { stOne with head := "c1",
               commits := [("c1", ⟨[["a.txt"]], "", [(["a.txt"], FsNode.file "x")]⟩)] }

/-- A staged path that no longer exists in the working tree. -/
def stGhost : RepoState :=
  { head := "", toCommit := [["g"]], commits := [], work := [] }

/-- One visible working-tree file, nothing staged, nothing committed. -/
def stPlain : RepoState :=
  { head := "", toCommit := [], commits := [], work := [(["a.txt"], "x")] }

/-! ## Claim theorems -/

/-- Claim C1 (failing-input evaluation): with the single staged path
`sub/b.txt`, `commit` succeeds, yet the snapshot tree holds a directory — not
a regular file — at relative path `sub/b.txt`, and the file's bytes sit at
`sub/b.txt/b.txt` instead: the tree generation runs `os.makedirs` on the
destination file path itself whenever the parent directory is missing, and
`copy2` then copies into that directory. -/
theorem commit_nested_snapshot_misplaced :
    commit stNested "abc" = Except.ok stNestedC ∧
      fsLookup fsNested ["sub", "b.txt"] = some FsNode.dir ∧
      fsLookup fsNested ["sub", "b.txt", "b.txt"] = some (FsNode.file "x") :=
  ⟨rfl, rfl, rfl⟩

/-- Claim C2 (counterexample): adding the directory `d` whose only content is
the hidden file `d/.h` stages that hidden file — `add` recurses with plain
`os.listdir` output and never filters hidden names, so the claim that no
hidden file is ever staged is false on the code. -/
theorem add_dir_stages_hidden_file :
    (add 3 stHidden [["d"]]).toCommit = [["d", ".h"]] ∧ hiddenName ".h" = true :=
  ⟨rfl, rfl⟩

/-- Claim C2 (amended): when `add` is given a directory path `d` (with fuel
covering every file below `d`), it stages exactly the regular files strictly
below `d`, recursively, with no hidden-name filtering: hidden files and files
inside hidden directories are staged like any others. -/
theorem add_dir_stages_exactly (st : RepoState) (d : Path) (fuel : Nat) (p : Path)
    (hok : WorkOk st.work) (hd : isWorkDir st.work d = true)
    (hfuel : ∀ e ∈ st.work, e.1.length < d.length + fuel) :
    p ∈ (add fuel st [d]).toCommit ↔
      p ∈ st.toCommit ∨
        (isWorkFile st.work p = true ∧ ∃ c t, p = d ++ c :: t) := by
  rw [add_mem fuel [d] st p]
  constructor
  · rintro (h | ⟨hstg, (⟨_, hmem⟩ | ⟨dd, hdd, _, c, t, hp, _⟩)⟩)
    · exact Or.inl h
    · rcases List.mem_singleton.mp hmem with rfl
      rw [hstg.2] at hd
      exact absurd hd (by simp)
    · rcases List.mem_singleton.mp hdd with rfl
      exact Or.inr ⟨((stageable_iff _ _).mp hstg).1, c, t, hp⟩
  · rintro (h | ⟨hfile, c, t, hp⟩)
    · exact Or.inl h
    · have hstg : stageable st.work p :=
        (stageable_iff _ _).mpr ⟨hfile, workOk_file_not_dir hok hfile⟩
      refine Or.inr ⟨hstg, Or.inr ⟨d, List.mem_singleton.mpr rfl, hd, c, t, hp, ?_⟩⟩
      obtain ⟨s, hs⟩ := (isWorkFile_iff _ _).mp hfile
      have hlen := hfuel (p, s) hs
      have hplen : p.length = d.length + (t.length + 1) := by
        rw [hp]; simp [List.length_append]
      simp only at hlen
      omega

/-- Witness for the amended C2 theorem at a concrete input: the hidden file
`d/.h` sits strictly below `d`, so by the theorem it gets staged. -/
theorem add_dir_stages_exactly_witness :
    ["d", ".h"] ∈ (add 3 stHidden [["d"]]).toCommit ↔
      ["d", ".h"] ∈ stHidden.toCommit ∨
        (isWorkFile stHidden.work ["d", ".h"] = true ∧
          ∃ c t, ["d", ".h"] = ["d"] ++ c :: t) :=
  add_dir_stages_exactly stHidden ["d"] 3 ["d", ".h"] (by decide) (by decide) (by decide)

/-- Claim C3: after any successful commit, HEAD holds exactly the new commit
id, and the new commit's PREV_COMMIT value is the HEAD value read immediately
before the commit began (the empty string when no commit existed). -/
theorem commit_updates_head_and_prev {st : RepoState} {id : String} {st' : RepoState}
    (h : commit st id = Except.ok st') :
    st'.head = id ∧
      ∃ c, lookupCommit st'.commits id = some c ∧ c.prevCommit = st.head := by
  obtain ⟨hfresh, hne, fs, hgen, rfl⟩ := commit_ok_spec h
  refine ⟨rfl, ⟨st.toCommit, st.head, fs⟩, ?_, rfl⟩
  rw [lookupCommit_cons, if_pos rfl]

/-- Witness for C3: committing the single staged file of `stOne`. -/
theorem commit_updates_head_and_prev_witness :
    stOneC.head = "c1" ∧
      ∃ c, lookupCommit stOneC.commits "c1" = some c ∧ c.prevCommit = stOne.head :=
  @commit_updates_head_and_prev stOne "c1" stOneC rfl

/-- Claim C4: in every state reachable from initialization, following
PREV_COMMIT links from HEAD reaches the empty predecessor after exactly as
many steps as commits ever created — no cycles, no dangling references. -/
theorem chain_integrity {st : RepoState} {N : Nat} (h : Reached st N) :
    ∀ fuel : Nat, N ≤ fuel → chainLen st.commits fuel st.head = some N := by
  induction h with
  | start w => intro fuel _; exact chainLen_empty _ fuel
  | stepAdd st n fuel files hst ih =>
    intro fl hfl
    rw [add_commits, add_head]
    exact ih fl hfl
  | stepCommit st n id st' hst hcommit ih =>
    intro fl hfl
    obtain ⟨hfresh, hne, fs, hgen, rfl⟩ := commit_ok_spec hcommit
    cases fl with
    | zero => omega
    | succ fl =>
      have hlk : lookupCommit
          ((id, (⟨st.toCommit, st.head, fs⟩ : Commit)) :: st.commits) id =
          some ⟨st.toCommit, st.head, fs⟩ := by
        rw [lookupCommit_cons, if_pos rfl]
      rw [chainLen_succ_some _ fl hne hlk,
        show (⟨st.toCommit, st.head, fs⟩ : Commit).prevCommit = st.head from rfl,
        chainLen_cons_fresh hfresh fl st.head n (ih fl (by omega))]
      rfl
  | stepEdit st n w hst ih =>
    intro fl hfl
    exact ih fl hfl

/-- Witness for C4: after the one commit producing `stOneC`, the chain from
HEAD has length exactly one. -/
theorem chain_integrity_witness :
    chainLen stOneC.commits 1 stOneC.head = some 1 :=
  chain_integrity
    (Reached.stepCommit _ 0 "c1" stOneC
      (Reached.stepAdd _ 0 1 [["a.txt"]] (Reached.start [(["a.txt"], "x")])) rfl)
    1 (Nat.le_refl 1)

/-- Claim C5: commit is not atomic on failure — when a staged path is missing
from the working tree, `commit` raises out of the snapshot step, but the
failure state already carries the new id in HEAD, the new commit record
exists (with an empty or partial snapshot), and no rollback occurs; the
staging list is untouched. -/
theorem commit_not_atomic_on_failure {st : RepoState} {id : String}
    (hfresh : lookupCommit st.commits id = none) (hne : id ≠ "")
    {f : Path} (hf : f ∈ st.toCommit) (hmiss : lookupWork st.work f = none) :
    ∃ st', commit st id = Except.error st' ∧ st'.head = id ∧
      (lookupCommit st'.commits id).isSome = true ∧ st'.toCommit = st.toCommit := by
  obtain ⟨fsPart, hcommit⟩ := commit_error_of_missing hfresh hne hf hmiss
  refine ⟨_, hcommit, rfl, ?_, rfl⟩
  rw [lookupCommit_cons, if_pos rfl]
  rfl

/-- Witness for C5: committing `stGhost`, whose staged path `g` has been
deleted from the working tree. -/
theorem commit_not_atomic_on_failure_witness :
    ∃ st', commit stGhost "c1" = Except.error st' ∧ st'.head = "c1" ∧
      (lookupCommit st'.commits "c1").isSome = true ∧
      st'.toCommit = stGhost.toCommit :=
  @commit_not_atomic_on_failure stGhost "c1" rfl (by decide) ["g"]
    (by decide) rfl

/-- Claim C6: for every non-hidden working-tree file, `status` assigns
exactly one of committed / staged / untracked, with committed (by membership
in the latest commit's tracked list) taking precedence over staged (by
membership in the staging list) over untracked; the classification reads
only path memberships, so replacing the working tree's contents — in
particular changing the bytes of an already-committed file — never changes
it.  The hypothesis on HEAD states that HEAD is empty or names a stored
commit, which every reachable state satisfies. -/
theorem status_classification (st : RepoState) (f : Path)
    (hf : f ∈ allFiles st.work)
    (hh : st.head = "" ∨ (lookupCommit st.commits st.head).isSome = true) :
    ∃ s : FileStatus, statusOf st f = Except.ok s ∧
      (s = FileStatus.committed ↔ wasCommited st f = Except.ok true) ∧
      (s = FileStatus.staged ↔
        wasCommited st f = Except.ok false ∧ f ∈ st.toCommit) ∧
      (s = FileStatus.untracked ↔
        wasCommited st f = Except.ok false ∧ f ∉ st.toCommit) ∧
      (∀ w' : WorkTree, statusOf { st with work := w' } f = statusOf st f) := by
  have hwc : ∃ b, wasCommited st f = Except.ok b := by
    by_cases hhe : st.head = ""
    · exact ⟨false, by rw [wasCommited, if_pos hhe]⟩
    · rcases hh with hh | hh
      · exact absurd hh hhe
      · cases hlk : lookupCommit st.commits st.head with
        | none => rw [hlk] at hh; exact absurd hh (by simp)
        | some c =>
          exact ⟨decide (f ∈ c.trackedList),
            by rw [wasCommited, if_neg hhe]; simp only [hlk]⟩
  obtain ⟨b, hwcb⟩ := hwc
  cases b with
  | true =>
    refine ⟨FileStatus.committed, by simp only [statusOf, hwcb], ?_, ?_, ?_,
      fun w' => rfl⟩ <;> simp [hwcb]
  | false =>
    by_cases hm : f ∈ st.toCommit
    · refine ⟨FileStatus.staged,
        by simp [statusOf, hwcb, wasAdded, hm], ?_, ?_, ?_, fun w' => rfl⟩ <;>
        simp [hwcb, hm]
    · refine ⟨FileStatus.untracked,
        by simp [statusOf, hwcb, wasAdded, hm], ?_, ?_, ?_, fun w' => rfl⟩ <;>
        simp [hwcb, hm]

/-- Witness for C6 on `stPlain` and its single visible file. -/
theorem status_classification_witness :
    ∃ s : FileStatus, statusOf stPlain ["a.txt"] = Except.ok s ∧
      (s = FileStatus.committed ↔ wasCommited stPlain ["a.txt"] = Except.ok true) ∧
      (s = FileStatus.staged ↔
        wasCommited stPlain ["a.txt"] = Except.ok false ∧ ["a.txt"] ∈ stPlain.toCommit) ∧
      (s = FileStatus.untracked ↔
        wasCommited stPlain ["a.txt"] = Except.ok false ∧ ["a.txt"] ∉ stPlain.toCommit) ∧
      (∀ w' : WorkTree, statusOf { stPlain with work := w' } ["a.txt"] =
        statusOf stPlain ["a.txt"]) :=
  status_classification stPlain ["a.txt"] (by decide) (Or.inl rfl)

/-- Claim C7: staging is idempotent — for a regular file whose path is
already in the staging list exactly once, running `add` on it again, alone
or twice in the same input list, leaves exactly one entry for it. -/
theorem add_idempotent (st : RepoState) (p : Path) (fuel : Nat)
    (hfile : isWorkFile st.work p = true) (h1 : st.toCommit.count p = 1) :
    (add fuel st [p]).toCommit.count p = 1 ∧
      (add fuel st [p, p]).toCommit.count p = 1 := by
  have := hfile
  constructor
  · rw [add_count p fuel [p] st (by omega)]; exact h1
  · rw [add_count p fuel [p, p] st (by omega)]; exact h1

/-- Witness for C7 on a one-file repository with the file already staged. -/
theorem add_idempotent_witness :
    (add 1 stOne [["a.txt"]]).toCommit.count ["a.txt"] = 1 ∧
      (add 1 stOne [["a.txt"], ["a.txt"]]).toCommit.count ["a.txt"] = 1 :=
  add_idempotent stOne ["a.txt"] 1 (by decide) (by decide)

/-- Claim C8: a successful commit leaves the staging list exactly unchanged —
it is never cleared or rewritten — and the new commit's tracked list is that
same staging list, so every future commit again includes all staged paths. -/
theorem commit_frame_staging {st : RepoState} {id : String} {st' : RepoState}
    (h : commit st id = Except.ok st') :
    st'.toCommit = st.toCommit ∧
      ∃ c, lookupCommit st'.commits id = some c ∧ c.trackedList = st'.toCommit := by
  obtain ⟨hfresh, hne, fs, hgen, rfl⟩ := commit_ok_spec h
  refine ⟨rfl, ⟨st.toCommit, st.head, fs⟩, ?_, rfl⟩
  rw [lookupCommit_cons, if_pos rfl]

/-- Witness for C8: the commit taking `stOne` to `stOneC`. -/
theorem commit_frame_staging_witness :
    stOneC.toCommit = stOne.toCommit ∧
      ∃ c, lookupCommit stOneC.commits "c1" = some c ∧
        c.trackedList = stOneC.toCommit :=
  @commit_frame_staging stOne "c1" stOneC rfl

/-- Claim C9: with an empty HEAD (no commit ever made), `wasCommited` answers
false for every path, so `status` classifies every file as staged or
untracked, never as committed. -/
theorem empty_head_never_committed (st : RepoState) (f : Path)
    (hh : st.head = "") :
    wasCommited st f = Except.ok false ∧
      statusOf st f =
        Except.ok (if f ∈ st.toCommit then FileStatus.staged
          else FileStatus.untracked) := by
  have hwc : wasCommited st f = Except.ok false := by rw [wasCommited, if_pos hh]
  refine ⟨hwc, ?_⟩
  by_cases hm : f ∈ st.toCommit
  · simp [statusOf, hwc, wasAdded, hm]
  · simp [statusOf, hwc, wasAdded, hm]

/-- Witness for C9 on the freshly initialized empty repository. -/
theorem empty_head_never_committed_witness :
    wasCommited (initState []) ["a.txt"] = Except.ok false ∧
      statusOf (initState []) ["a.txt"] =
        Except.ok (if ["a.txt"] ∈ (initState []).toCommit then FileStatus.staged
          else FileStatus.untracked) :=
  empty_head_never_committed (initState []) ["a.txt"] rfl

/-- Claim C10: committing with an empty staging list succeeds exactly like
any other commit: the new record has an empty tracked list and a snapshot
tree with no entries, PREV_COMMIT holds the previous HEAD, and HEAD becomes
the new id. -/
theorem commit_empty_staging {st : RepoState} {id : String}
    (hempty : st.toCommit = []) (hfresh : lookupCommit st.commits id = none)
    (hne : id ≠ "") :
    commit st id =
      Except.ok { st with head := id,
                          commits := (id, ⟨[], st.head, []⟩) :: st.commits } := by
  unfold commit
  rw [if_neg (by simp [hfresh]), if_neg hne, hempty]
  rfl

/-- The state produced by committing the empty staging list of a freshly
initialized repository whose working tree holds one file. -/
def stEmptyC : RepoState :=
  { head := "c1", toCommit := [], commits := [("c1", ⟨[], "", []⟩)],
    work := [(["a.txt"], "x")] }

/-- Witness for C10: the first commit of an empty staging list. -/
theorem commit_empty_staging_witness :
    commit (initState [(["a.txt"], "x")]) "c1" = Except.ok stEmptyC :=
  @commit_empty_staging (initState [(["a.txt"], "x")]) "c1" rfl rfl (by decide)

end SimpleGit
